import Mathlib

/-!
# Verification of the causal / dilated convolution core

Shallow embedding of the dilated-causal-convolution notebook
(`causal_conv`).  The notebook works on rank-3 tensors of shape
(batch, time, channel) with batch = channel = 1 throughout the
demonstration, so the pipeline is embedded over one-dimensional
integer signals (`List Int`), with an additional fully general rank-3
embedding of the `VALID` 1-D convolution primitive (`tf.nn.conv1d`)
used by every cell.

The polyphase split (`tf.pad` + `tf.reshape` + `tf.transpose` +
`tf.reshape`, cell 8) and merge (`tf.reshape` + `tf.transpose` +
`tf.reshape`, cell 8) are layout tricks; they are embedded as the
equivalent explicit index arithmetic: stream `s` of the split holds the
right-padded samples at indices `s, s + d, s + 2*d, ...`, and the merge
interleaves the streams back.
-/

namespace CausalConv

/-- A single-batch, single-channel signal: the time axis only
(the notebook's tensors have shape `[1, time, 1]`). -/
abbrev Sig := List Int

/-- Cell 6: `tf.pad(X, [[0, 0], [filter_width - 1, 0], [0, 0]])` —
left-pad the time axis with `amount` zeros (CausalPad). -/
def causalPad (amount : Nat) (x : Sig) : Sig :=
  List.replicate amount 0 ++ x

/-- Cell 8: `tf.pad(X, [[0, 0], [0, pad_amount], [0, 0]])` —
right-pad the time axis with `amount` zeros. -/
def rightPad (amount : Nat) (x : Sig) : Sig :=
  x ++ List.replicate amount 0

/-- `tf.nn.conv1d(X, H, 1, 'VALID')` specialised to one batch element and
one channel: output position `t` is the inner product of the kernel with
the input window starting at `t`; output length is
`time_length - filter_width + 1` (as truncated Nat subtraction,
`time_length + 1 - filter_width`). -/
def validConv (k x : Sig) : Sig :=
  (List.range (x.length + 1 - k.length)).map fun t =>
    ∑ j ∈ Finset.range k.length, k.getD j 0 * x.getD (t + j) 0

/-- Cell 8: `(dilation - input_len % dilation) % dilation`. -/
def padAmount (d T : Nat) : Nat :=
  (d - T % d) % d

/-- Cell 8, polyphase split: right-pad the signal to a multiple of `d`,
then decimate it into `d` phase streams; stream `s` holds the padded
samples at indices `s, s + d, s + 2*d, ...` (the index-arithmetic
reading of the notebook's reshape `[-1, d, 1]`, transpose `[1, 0, 2]`,
reshape `[d, -1, 1]`). -/
def split (d : Nat) (x : Sig) : List Sig :=
  let padded := rightPad (padAmount d x.length) x
  let M := padded.length / d
  (List.range d).map fun s =>
    (List.range M).map fun p => padded.getD (p * d + s) 0

/-- Cell 8, polyphase merge: interleave `d` streams of equal length `M`
back into one signal of length `d * M`; merged sample `t` is local
sample `t / d` of stream `t % d` (the index-arithmetic reading of the
notebook's reshape `[d, -1, 1]`, transpose `[1, 0, 2]`,
reshape `[1, -1, 1]`). -/
def merge (d : Nat) (streams : List Sig) : Sig :=
  let M := (streams.headD []).length
  (List.range (d * M)).map fun t =>
    (streams.getD (t % d) []).getD (t / d) 0

/-- Cell 8, the dilated-causal orchestrator:
polyphase split, causal left-pad of every stream by `filter_width - 1`,
`VALID` convolution per stream, polyphase merge, and the final trim to
the original time length.  Modelled from the spec: the trim of the
trailing `pad_amount` samples (spec §4.5 step 5); the notebook cell
demonstrates the pipeline at `input_len = 8`, `dilation = 2`, where
`pad_amount = 0` and the trim is a no-op. -/
def dilatedCausalConv (d : Nat) (k x : Sig) : Sig :=
  let streams := split d x
  let convs := streams.map fun s => validConv k (causalPad (k.length - 1) s)
  (merge d convs).take x.length

/-- Modelled from the spec: the zero-interleaved (`d`-spaced-tap) dilated
kernel, "rather than constructing a sparse (zero-interleaved) kernel"
(spec §1): tap `j` of `k` lands at offset `j * d`, all other entries
are zero; total width `(filter_width - 1) * d + 1`. -/
def dilate (d : Nat) (k : Sig) : Sig :=
  (List.range ((k.length - 1) * d + 1)).map fun i =>
    if i % d = 0 then k.getD (i / d) 0 else 0

/-- Modelled from the spec: the naive dilated *causal* convolution the
polyphase pipeline is claimed to refine — left-pad by the dilated
kernel's width minus one, then `VALID`-convolve with the dilated
kernel. -/
def naiveDilatedCausal (d : Nat) (k x : Sig) : Sig :=
  validConv (dilate d k) (causalPad ((k.length - 1) * d) x)

/-- Pointwise sum of two signals (`zipWith`). -/
def addSig (x y : Sig) : Sig := List.zipWith (· + ·) x y

/-- Pointwise scalar multiple of a signal. -/
def smulSig (c : Int) (x : Sig) : Sig := x.map fun a => c * a

/-! ## The general rank-3 `VALID` convolution (`tf.nn.conv1d`)

Signals are (batch, time, channel) nested lists and kernels are
(filter_width, in_channels, out_channels) nested lists, exactly the
axis order of cells 2, 4, 6, 8. -/

/-- A rank-3 array: outermost axis first. -/
abbrev Sig3 := List (List (List Int))

/-- Number of input channels of a kernel (length of the second axis). -/
def inChannels (kernel : Sig3) : Nat := (kernel.headD []).length

/-- Number of output channels of a kernel (length of the third axis). -/
def outChannels (kernel : Sig3) : Nat := ((kernel.headD []).headD []).length

/-- `tf.nn.conv1d(signal, kernel, 1, 'VALID')` on a batch of
multi-channel signals: for each batch element `b`, output time `t` and
output channel `o`,
`out[b][t][o] = Σ_j Σ_c signal[b][t + j][c] * kernel[j][c][o]`,
stride 1, no implicit padding. -/
def validConv3 (kernel signal : Sig3) : Sig3 :=
  signal.map fun xb =>
    (List.range (xb.length + 1 - kernel.length)).map fun t =>
      (List.range (outChannels kernel)).map fun o =>
        ∑ j ∈ Finset.range kernel.length,
          ∑ c ∈ Finset.range (inChannels kernel),
            (xb.getD (t + j) []).getD c 0 *
              ((kernel.getD j []).getD c []).getD o 0

/-- Cell 2: the demonstration signal `tf.range(8)`. -/
def demoSignal : Sig := [0, 1, 2, 3, 4, 5, 6, 7]

/-- Cell 4: the demonstration kernel `tf.ones([3, 1, 1])`
(an accumulator). -/
def demoKernel : Sig := [1, 1, 1]

/-! ## Basic lemmas about the primitives -/

theorem length_causalPad (a : Nat) (x : Sig) :
    (causalPad a x).length = a + x.length := by
  simp [causalPad]

theorem length_rightPad (a : Nat) (x : Sig) :
    (rightPad a x).length = x.length + a := by
  simp [rightPad]

theorem getD_causalPad (a : Nat) (x : Sig) (i : Nat) :
    (causalPad a x).getD i 0 = if i < a then 0 else x.getD (i - a) 0 := by
  unfold causalPad
  by_cases h : i < a
  · rw [if_pos h, List.getD_append _ _ _ _ (by simpa using h),
      List.getD_eq_getElem _ _ (by simpa using h)]
    simp
  · rw [if_neg h, List.getD_append_right _ _ _ _ (by simpa using Nat.le_of_not_lt h)]
    simp

theorem getD_rightPad (a : Nat) (x : Sig) (i : Nat) :
    (rightPad a x).getD i 0 = x.getD i 0 := by
  unfold rightPad
  by_cases h : i < x.length
  · rw [List.getD_append _ _ _ _ h]
  · rw [List.getD_append_right _ _ _ _ (Nat.le_of_not_lt h),
      List.getD_eq_default _ _ (Nat.le_of_not_lt h)]
    rcases Nat.lt_or_ge (i - x.length) a with h2 | h2
    · rw [List.getD_eq_getElem _ _ (by simpa using h2)]
      simp
    · rw [List.getD_eq_default _ _ (by simpa using h2)]

theorem length_validConv (k x : Sig) :
    (validConv k x).length = x.length + 1 - k.length := by
  simp [validConv]

theorem getD_validConv (k x : Sig) (t : Nat)
    (ht : t < x.length + 1 - k.length) :
    (validConv k x).getD t 0 =
      ∑ j ∈ Finset.range k.length, k.getD j 0 * x.getD (t + j) 0 := by
  unfold validConv
  rw [List.getD_eq_getElem _ _ (by simpa using ht)]
  simp

theorem padAmount_lt (d T : Nat) (hd : 0 < d) : padAmount d T < d :=
  Nat.mod_lt _ hd

theorem padAmount_add_mod (d T : Nat) (hd : 0 < d) :
    (T + padAmount d T) % d = 0 := by
  unfold padAmount
  by_cases h : T % d = 0
  · rw [h, Nat.sub_zero, Nat.mod_self, Nat.add_zero, h]
  · have hlt : T % d < d := Nat.mod_lt _ hd
    have hdm := Nat.div_add_mod T d
    obtain ⟨q, hq⟩ : ∃ q, d * (T / d) = q := ⟨_, rfl⟩
    rw [hq] at hdm
    have h2 : T + (d - T % d) = q + d := by omega
    rw [Nat.mod_eq_of_lt (show d - T % d < d by omega), h2, Nat.add_mod, ← hq,
      Nat.mul_mod_right, Nat.mod_self]
    simp

theorem dvd_add_padAmount (d T : Nat) (hd : 0 < d) :
    d ∣ (T + padAmount d T) :=
  Nat.dvd_of_mod_eq_zero (padAmount_add_mod d T hd)

theorem div_mul_padded (d T : Nat) (hd : 0 < d) :
    d * ((T + padAmount d T) / d) = T + padAmount d T :=
  Nat.mul_div_cancel' (dvd_add_padAmount d T hd)

theorem length_split (d : Nat) (x : Sig) : (split d x).length = d := by
  simp [split]

theorem getD_split (d : Nat) (x : Sig) (s : Nat) (hs : s < d) :
    (split d x).getD s [] =
      (List.range ((x.length + padAmount d x.length) / d)).map fun p =>
        (rightPad (padAmount d x.length) x).getD (p * d + s) 0 := by
  unfold split
  rw [List.getD_eq_getElem _ _ (by simpa using hs)]
  simp [length_rightPad]

theorem length_split_stream (d : Nat) (x : Sig) (s : Nat) (hs : s < d) :
    ((split d x).getD s []).length = (x.length + padAmount d x.length) / d := by
  rw [getD_split d x s hs]
  simp

theorem getD_split_stream (d : Nat) (x : Sig) (s p : Nat) (hs : s < d)
    (hp : p < (x.length + padAmount d x.length) / d) :
    ((split d x).getD s []).getD p 0 = x.getD (p * d + s) 0 := by
  rw [getD_split d x s hs,
    List.getD_eq_getElem _ _ (by simpa using hp)]
  simpa using getD_rightPad (padAmount d x.length) x (p * d + s)

theorem length_merge (d : Nat) (streams : List Sig) :
    (merge d streams).length = d * (streams.headD []).length := by
  simp [merge]

theorem getD_merge (d : Nat) (streams : List Sig) (t : Nat)
    (ht : t < d * (streams.headD []).length) :
    (merge d streams).getD t 0 =
      (streams.getD (t % d) []).getD (t / d) 0 := by
  unfold merge
  rw [List.getD_eq_getElem _ _ (by simpa using ht)]
  simp

theorem headD_eq_getD_zero {α : Type} (l : List α) (dflt : α) :
    l.headD dflt = l.getD 0 dflt := by
  cases l <;> rfl

theorem getD_map_sig (f : Sig → Sig) (l : List Sig) (i : Nat)
    (h : i < l.length) :
    (l.map f).getD i [] = f (l.getD i []) := by
  rw [List.getD_eq_getElem _ _ (by simpa using h), List.getD_eq_getElem _ _ h]
  simp

/-- Per-stream output length inside the orchestrator: the causal
left-pad by `filter_width - 1` exactly cancels the length lost to the
`VALID` convolution. -/
theorem length_stream_conv (d : Nat) (k x : Sig) (s : Nat) (hk : 0 < k.length)
    (hs : s < d) :
    (validConv k (causalPad (k.length - 1) ((split d x).getD s []))).length =
      (x.length + padAmount d x.length) / d := by
  rw [length_validConv, length_causalPad, length_split_stream d x s hs]
  obtain ⟨M, hMdef⟩ : ∃ M, (x.length + padAmount d x.length) / d = M := ⟨_, rfl⟩
  rw [hMdef]
  omega

theorem length_dilatedCausalConv (d : Nat) (k x : Sig) (hd : 0 < d)
    (hk : 0 < k.length) :
    (dilatedCausalConv d k x).length = x.length := by
  show ((merge d ((split d x).map fun s =>
    validConv k (causalPad (k.length - 1) s))).take x.length).length = x.length
  obtain ⟨M, hMdef⟩ : ∃ M, (x.length + padAmount d x.length) / d = M := ⟨_, rfl⟩
  have hM : d * M = x.length + padAmount d x.length := by
    rw [← hMdef]; exact div_mul_padded d x.length hd
  have hhead : ((split d x).map fun s =>
      validConv k (causalPad (k.length - 1) s)).headD [] =
      validConv k (causalPad (k.length - 1) ((split d x).getD 0 [])) := by
    rw [headD_eq_getD_zero, getD_map_sig _ _ _ (by rw [length_split]; exact hd)]
  rw [List.length_take, length_merge, hhead, length_stream_conv d k x 0 hk hd,
    hMdef]
  omega

/-- Master characterisation: for every in-range time index `t`, the
dilated-causal pipeline output at `t` is the inner product of the kernel
with the input samples at `t, t - d, t - 2d, ...` (zero before the start
of the signal) — the causal dilated-kernel convolution. -/
theorem getD_dilatedCausalConv (d : Nat) (k x : Sig) (t : Nat) (hd : 0 < d)
    (hk : 0 < k.length) (ht : t < x.length) :
    (dilatedCausalConv d k x).getD t 0 =
      ∑ j ∈ Finset.range k.length, k.getD j 0 *
        (if (k.length - 1 - j) * d ≤ t then
          x.getD (t - (k.length - 1 - j) * d) 0 else 0) := by
  show ((merge d ((split d x).map fun s =>
    validConv k (causalPad (k.length - 1) s))).take x.length).getD t 0 = _
  obtain ⟨M, hMdef⟩ : ∃ M, (x.length + padAmount d x.length) / d = M := ⟨_, rfl⟩
  have hM : d * M = x.length + padAmount d x.length := by
    rw [← hMdef]; exact div_mul_padded d x.length hd
  have hhead : ((split d x).map fun s =>
      validConv k (causalPad (k.length - 1) s)).headD [] =
      validConv k (causalPad (k.length - 1) ((split d x).getD 0 [])) := by
    rw [headD_eq_getD_zero, getD_map_sig _ _ _ (by rw [length_split]; exact hd)]
  have hheadlen : (((split d x).map fun s =>
      validConv k (causalPad (k.length - 1) s)).headD []).length = M := by
    rw [hhead, length_stream_conv d k x 0 hk hd, hMdef]
  have htm : t < d * M := by omega
  have htake : t < ((merge d ((split d x).map fun s =>
      validConv k (causalPad (k.length - 1) s))).take x.length).length := by
    rw [List.length_take, length_merge, hheadlen]
    omega
  rw [List.getD_eq_getElem _ _ htake, List.getElem_take,
    ← List.getD_eq_getElem _ 0 (by rw [length_merge, hheadlen]; exact htm),
    getD_merge _ _ _ (by rw [hheadlen]; exact htm),
    getD_map_sig _ _ _ (by rw [length_split]; exact Nat.mod_lt _ hd)]
  obtain ⟨s, hsdef⟩ : ∃ s, t % d = s := ⟨_, rfl⟩
  obtain ⟨p, hpdef⟩ : ∃ p, t / d = p := ⟨_, rfl⟩
  have hs : s < d := hsdef ▸ Nat.mod_lt _ hd
  have hps : p * d + s = t := by
    rw [← hsdef, ← hpdef, Nat.mul_comm]; exact Nat.div_add_mod t d
  have hp : p < M := by
    rw [← hpdef, ← hMdef]
    exact (Nat.div_lt_iff_lt_mul hd).mpr (by
      rw [Nat.mul_comm, hMdef]; exact htm)
  rw [hsdef, hpdef,
    getD_validConv _ _ _ (by
      rw [length_causalPad, length_split_stream d x _ hs, hMdef]; omega)]
  refine Finset.sum_congr rfl fun j hj => ?_
  rw [Finset.mem_range] at hj
  congr 1
  rw [getD_causalPad]
  by_cases hc : p + j < k.length - 1
  · rw [if_pos hc]
    have e1 : (p + 1) * d = p * d + d := by ring
    have h2 : (p + 1) * d ≤ (k.length - 1 - j) * d :=
      Nat.mul_le_mul_right _ (by omega)
    rw [if_neg (by omega)]
  · rw [if_neg hc]
    rw [getD_split_stream d x _ _ hs (by rw [hMdef]; omega)]
    have h4 : (k.length - 1 - j) * d ≤ p * d :=
      Nat.mul_le_mul_right _ (by omega)
    rw [if_pos (by omega)]
    have e2 : (p + j - (k.length - 1)) * d + (k.length - 1 - j) * d =
        p * d := by
      rw [← Nat.add_mul]
      congr 1
      omega
    congr 1
    omega

theorem length_dilate (d : Nat) (k : Sig) :
    (dilate d k).length = (k.length - 1) * d + 1 := by
  simp [dilate]

theorem getD_dilate (d : Nat) (k : Sig) (i : Nat)
    (hi : i < (k.length - 1) * d + 1) :
    (dilate d k).getD i 0 = if i % d = 0 then k.getD (i / d) 0 else 0 := by
  unfold dilate
  rw [List.getD_eq_getElem _ _ (by simpa using hi)]
  simp

theorem length_naiveDilatedCausal (d : Nat) (k x : Sig) :
    (naiveDilatedCausal d k x).length = x.length := by
  unfold naiveDilatedCausal
  rw [length_validConv, length_dilate, length_causalPad]
  omega

/-- Summing a function against the zero-interleaved kernel over its full
width collapses to a sum over the live taps at offsets `0, d, 2*d, ...`. -/
theorem sum_dilate_reindex (d n : Nat) (hd : 0 < d) (a g : Nat → Int) :
    (∑ i ∈ Finset.range (n * d + 1),
      (if i % d = 0 then a (i / d) else 0) * g i) =
      ∑ j ∈ Finset.range (n + 1), a j * g (j * d) := by
  rw [show (∑ i ∈ Finset.range (n * d + 1),
      (if i % d = 0 then a (i / d) else 0) * g i) =
      ∑ i ∈ Finset.range (n * d + 1),
      (if i % d = 0 then a (i / d) * g i else 0) from
    Finset.sum_congr rfl fun i _ => by by_cases h : i % d = 0 <;> simp [h]]
  rw [← Finset.sum_filter]
  refine Finset.sum_nbij' (fun i => i / d) (fun j => j * d) ?_ ?_ ?_ ?_ ?_
  · intro i hi
    rw [Finset.mem_filter, Finset.mem_range] at hi
    rw [Finset.mem_range]
    refine Nat.lt_succ_of_le ?_
    have h1 : i ≤ n * d := by omega
    have h2 : i / d ≤ n * d / d := Nat.div_le_div_right h1
    rwa [Nat.mul_div_cancel _ hd] at h2
  · intro j hj
    rw [Finset.mem_range] at hj
    rw [Finset.mem_filter, Finset.mem_range]
    refine ⟨Nat.lt_succ_of_le (Nat.mul_le_mul_right _ (by omega)), ?_⟩
    exact Nat.mul_mod_left j d
  · intro i hi
    rw [Finset.mem_filter] at hi
    exact Nat.div_mul_cancel (Nat.dvd_of_mod_eq_zero hi.2)
  · intro j _
    exact Nat.mul_div_cancel _ hd
  · intro i hi
    rw [Finset.mem_filter] at hi
    rw [Nat.div_mul_cancel (Nat.dvd_of_mod_eq_zero hi.2)]

/-- The naive dilated causal convolution output at `t` is the inner
product of the kernel with the input samples at `t, t - d, t - 2d, ...`
(zero before the start of the signal) — the same form as the pipeline's
master characterisation. -/
theorem getD_naiveDilatedCausal (d : Nat) (k x : Sig) (t : Nat) (hd : 0 < d)
    (hk : 0 < k.length) (ht : t < x.length) :
    (naiveDilatedCausal d k x).getD t 0 =
      ∑ j ∈ Finset.range k.length, k.getD j 0 *
        (if (k.length - 1 - j) * d ≤ t then
          x.getD (t - (k.length - 1 - j) * d) 0 else 0) := by
  unfold naiveDilatedCausal
  rw [getD_validConv _ _ _ (by rw [length_dilate, length_causalPad]; omega),
    length_dilate,
    Finset.sum_congr rfl fun i hi => by
      rw [getD_dilate d k i (by simpa using hi)]]
  have h1 : (∑ i ∈ Finset.range ((k.length - 1) * d + 1),
      (if i % d = 0 then k.getD (i / d) 0 else 0) *
        (causalPad ((k.length - 1) * d) x).getD (t + i) 0) =
      ∑ j ∈ Finset.range (k.length - 1 + 1), k.getD j 0 *
        (causalPad ((k.length - 1) * d) x).getD (t + j * d) 0 :=
    sum_dilate_reindex d (k.length - 1) hd (fun j => k.getD j 0)
      (fun i => (causalPad ((k.length - 1) * d) x).getD (t + i) 0)
  rw [h1, show k.length - 1 + 1 = k.length by omega]
  refine Finset.sum_congr rfl fun j hj => ?_
  rw [Finset.mem_range] at hj
  congr 1
  rw [getD_causalPad]
  have e : (k.length - 1 - j) * d + j * d = (k.length - 1) * d := by
    rw [← Nat.add_mul]
    congr 1
    omega
  by_cases hcond : (k.length - 1 - j) * d ≤ t
  · rw [if_neg (by omega), if_pos hcond]
    congr 1
    omega
  · rw [if_pos (by omega), if_neg hcond]

/-! ## The non-dilated causal convolution (cell 6) -/

theorem length_causalConv (k x : Sig) (hk : 0 < k.length) :
    (validConv k (causalPad (k.length - 1) x)).length = x.length := by
  rw [length_validConv, length_causalPad]
  omega

/-- Cell 6 characterisation: the causally padded `VALID` convolution
output at `t` is the inner product of the kernel with the input samples
at `t, t - 1, t - 2, ...` (zero before the start of the signal). -/
theorem getD_causalConv (k x : Sig) (t : Nat) (hk : 0 < k.length)
    (ht : t < x.length) :
    (validConv k (causalPad (k.length - 1) x)).getD t 0 =
      ∑ j ∈ Finset.range k.length, k.getD j 0 *
        (if k.length - 1 - j ≤ t then
          x.getD (t - (k.length - 1 - j)) 0 else 0) := by
  rw [getD_validConv _ _ _ (by rw [length_causalPad]; omega)]
  refine Finset.sum_congr rfl fun j hj => ?_
  rw [Finset.mem_range] at hj
  congr 1
  rw [getD_causalPad]
  by_cases hc : k.length - 1 - j ≤ t
  · rw [if_neg (by omega), if_pos hc]
    congr 1
    omega
  · rw [if_pos (by omega), if_neg hc]

/-! ## Claim theorems -/

/-- C1: for every valid input signal, kernel, and dilation rate `d`, the
dilated-causal orchestrator (split, causal pad by `filter_width - 1` per
stream, `VALID` convolution, merge, trim) returns a signal whose time
length equals the input's time length — including when the input time
length is not a multiple of `d`. -/
theorem dilated_length_invariance (d : Nat) (k x : Sig) (hd : 0 < d)
    (hk : 0 < k.length) :
    (dilatedCausalConv d k x).length = x.length :=
  length_dilatedCausalConv d k x hd hk

theorem dilated_length_invariance_witness :
    0 < 2 ∧ 0 < (demoKernel : Sig).length ∧
    (dilatedCausalConv 2 demoKernel [0, 1, 2, 3, 4, 5, 6]).length = 7 :=
  ⟨by decide, by decide, by
    have h := dilated_length_invariance 2 demoKernel [0, 1, 2, 3, 4, 5, 6]
      (by decide) (by decide)
    simpa using h⟩

/-- C2: for every input signal, kernel, and dilation rate `d`, every
phase `s < d` and local position `p`, the polyphase pipeline's output at
global time `p * d + s` equals the causal convolution of the input with
the zero-interleaved (`d`-spaced-tap) dilated kernel at that time. -/
theorem polyphase_refines_naive (d : Nat) (k x : Sig) (s p : Nat)
    (hd : 0 < d) (hk : 0 < k.length) (hs : s < d)
    (ht : p * d + s < x.length) :
    (dilatedCausalConv d k x).getD (p * d + s) 0 =
      (naiveDilatedCausal d k x).getD (p * d + s) 0 := by
  rw [getD_dilatedCausalConv d k x _ hd hk ht,
    getD_naiveDilatedCausal d k x _ hd hk ht]

theorem polyphase_refines_naive_witness :
    0 < 2 ∧ 0 < (demoKernel : Sig).length ∧ 1 < 2 ∧
    2 * 2 + 1 < (demoSignal : Sig).length ∧
    (dilatedCausalConv 2 demoKernel demoSignal).getD (2 * 2 + 1) 0 =
      (naiveDilatedCausal 2 demoKernel demoSignal).getD (2 * 2 + 1) 0 :=
  ⟨by decide, by decide, by decide, by decide,
    polyphase_refines_naive 2 demoKernel demoSignal 1 2
      (by decide) (by decide) (by decide) (by decide)⟩

/-- C3: if two inputs of the same shape agree at all time indices
`≤ t`, then both the non-dilated causal convolution (cell 6) and the
dilated-causal operator (cell 8) produce outputs that agree at every
time index `i ≤ t`. -/
theorem causality_agreement (d : Nat) (k x1 x2 : Sig) (t i : Nat) (hd : 0 < d)
    (hk : 0 < k.length) (hlen : x1.length = x2.length)
    (hagree : ∀ n, n ≤ t → x1.getD n 0 = x2.getD n 0) (hi : i ≤ t) :
    (validConv k (causalPad (k.length - 1) x1)).getD i 0 =
      (validConv k (causalPad (k.length - 1) x2)).getD i 0 ∧
    (dilatedCausalConv d k x1).getD i 0 =
      (dilatedCausalConv d k x2).getD i 0 := by
  constructor
  · by_cases hin : i < x1.length
    · rw [getD_causalConv k x1 i hk hin, getD_causalConv k x2 i hk (by omega)]
      refine Finset.sum_congr rfl fun j _ => ?_
      by_cases hc : k.length - 1 - j ≤ i
      · rw [if_pos hc, if_pos hc,
          hagree (i - (k.length - 1 - j)) (by omega)]
      · rw [if_neg hc, if_neg hc]
    · rw [List.getD_eq_default _ _ (by rw [length_causalConv k x1 hk]; omega),
        List.getD_eq_default _ _ (by rw [length_causalConv k x2 hk]; omega)]
  · by_cases hin : i < x1.length
    · rw [getD_dilatedCausalConv d k x1 i hd hk hin,
        getD_dilatedCausalConv d k x2 i hd hk (by omega)]
      refine Finset.sum_congr rfl fun j _ => ?_
      by_cases hc : (k.length - 1 - j) * d ≤ i
      · rw [if_pos hc, if_pos hc,
          hagree (i - (k.length - 1 - j) * d) (by omega)]
      · rw [if_neg hc, if_neg hc]
    · rw [List.getD_eq_default _ _
          (by rw [length_dilatedCausalConv d k x1 hd hk]; omega),
        List.getD_eq_default _ _
          (by rw [length_dilatedCausalConv d k x2 hd hk]; omega)]

theorem causality_agreement_witness :
    0 < 2 ∧ 0 < (demoKernel : Sig).length ∧
    (List.length [(1 : Int), 2, 3, 9] = List.length [(1 : Int), 2, 3, 4]) ∧
    (2 : Nat) ≤ 2 ∧
    (validConv demoKernel
        (causalPad 2 [(1 : Int), 2, 3, 9])).getD 2 0 =
      (validConv demoKernel (causalPad 2 [(1 : Int), 2, 3, 4])).getD 2 0 ∧
    (dilatedCausalConv 2 demoKernel [(1 : Int), 2, 3, 9]).getD 2 0 =
      (dilatedCausalConv 2 demoKernel [(1 : Int), 2, 3, 4]).getD 2 0 := by
  have h := causality_agreement 2 demoKernel [(1 : Int), 2, 3, 9]
    [(1 : Int), 2, 3, 4] 2 2 (by decide) (by decide) (by decide)
    (fun n hn => by interval_cases n <;> rfl) (by decide)
  exact ⟨by decide, by decide, by decide, by decide, h.1, h.2⟩

/-- C4: with dilation rate `d = 1` the dilated-causal operator returns
exactly `ValidConv1D(CausalPad(x, filter_width - 1), k)`: split and
merge are identities, `pad_amount = 0`, and the trim changes nothing. -/
theorem dilation_one_equiv (k x : Sig) (hk : 0 < k.length) :
    dilatedCausalConv 1 k x = validConv k (causalPad (k.length - 1) x) := by
  apply List.ext_getElem
  · rw [length_dilatedCausalConv 1 k x Nat.one_pos hk,
      length_causalConv k x hk]
  · intro i h1 h2
    have hin : i < x.length := by
      rwa [length_dilatedCausalConv 1 k x Nat.one_pos hk] at h1
    rw [← List.getD_eq_getElem _ 0 h1, ← List.getD_eq_getElem _ 0 h2,
      getD_dilatedCausalConv 1 k x i Nat.one_pos hk hin,
      getD_causalConv k x i hk hin]
    refine Finset.sum_congr rfl fun j _ => ?_
    rw [Nat.mul_one]

theorem dilation_one_equiv_witness :
    0 < (demoKernel : Sig).length ∧
    dilatedCausalConv 1 demoKernel demoSignal =
      validConv demoKernel (causalPad 2 demoSignal) :=
  ⟨by decide, dilation_one_equiv demoKernel demoSignal (by decide)⟩

/-- C5: merging the phase batch produced by `split` with no computation
in between yields the input right-padded with `pad_amount` zero
time-steps: merge is the exact structural inverse of split's
decimation. -/
theorem merge_split_roundtrip (d : Nat) (x : Sig) (hd : 0 < d) :
    merge d (split d x) = rightPad (padAmount d x.length) x := by
  obtain ⟨M, hMdef⟩ : ∃ M, (x.length + padAmount d x.length) / d = M :=
    ⟨_, rfl⟩
  have hM : d * M = x.length + padAmount d x.length := by
    rw [← hMdef]; exact div_mul_padded d x.length hd
  have hhead : ((split d x).headD []).length = M := by
    rw [headD_eq_getD_zero, length_split_stream d x 0 hd, hMdef]
  apply List.ext_getElem
  · rw [length_merge, hhead, length_rightPad]
    omega
  · intro i h1 h2
    have him : i < d * M := by rwa [length_merge, hhead] at h1
    rw [← List.getD_eq_getElem _ 0 h1, ← List.getD_eq_getElem _ 0 h2,
      getD_merge d _ i (by rw [hhead]; exact him),
      getD_split_stream d x (i % d) (i / d) (Nat.mod_lt _ hd) (by
        rw [hMdef]
        exact (Nat.div_lt_iff_lt_mul hd).mpr (by rw [Nat.mul_comm]; exact him)),
      getD_rightPad]
    congr 1
    rw [Nat.mul_comm]
    exact Nat.div_add_mod i d

theorem merge_split_roundtrip_witness :
    0 < 2 ∧
    merge 2 (split 2 [(0 : Int), 1, 2, 3, 4, 5, 6]) =
      rightPad (padAmount 2 7) [(0 : Int), 1, 2, 3, 4, 5, 6] :=
  ⟨by decide, by
    have h := merge_split_roundtrip 2 [(0 : Int), 1, 2, 3, 4, 5, 6]
      (by decide)
    simpa using h⟩

/-- C6: `split` computes `pad_amount = (d - T mod d) mod d`, right-pads
the time axis to length `T + pad_amount` (a multiple of `d`), and
returns `d` phase streams (batch `1 * d`) of time length
`(T + pad_amount) / d`, in which stream `s` holds, in order, the padded
samples at original time indices `s, s + d, s + 2d, ...`. -/
theorem split_correct (d : Nat) (x : Sig) (hd : 0 < d) :
    padAmount d x.length = (d - x.length % d) % d ∧
    (rightPad (padAmount d x.length) x).length =
      x.length + padAmount d x.length ∧
    d ∣ (x.length + padAmount d x.length) ∧
    (split d x).length = d ∧
    (∀ s, s < d → ((split d x).getD s []).length =
      (x.length + padAmount d x.length) / d) ∧
    ∀ s p, s < d → p < (x.length + padAmount d x.length) / d →
      ((split d x).getD s []).getD p 0 =
        (rightPad (padAmount d x.length) x).getD (p * d + s) 0 := by
  refine ⟨rfl, length_rightPad _ _, dvd_add_padAmount d x.length hd,
    length_split d x, fun s hs => length_split_stream d x s hs,
    fun s p hs hp => ?_⟩
  rw [getD_split_stream d x s p hs hp, getD_rightPad]

theorem split_correct_witness :
    0 < 2 ∧
    (split 2 [(0 : Int), 1, 2, 3, 4, 5, 6]).length = 2 ∧
    ((split 2 [(0 : Int), 1, 2, 3, 4, 5, 6]).getD 1 []).getD 2 0 =
      (rightPad (padAmount 2 7)
        [(0 : Int), 1, 2, 3, 4, 5, 6]).getD (2 * 2 + 1) 0 := by
  have h := split_correct 2 [(0 : Int), 1, 2, 3, 4, 5, 6] (by decide)
  exact ⟨by decide, h.2.2.2.1, h.2.2.2.2.2 1 2 (by decide) (by decide)⟩

theorem getD_map_list {α β : Type} (f : α → β) (l : List α) (i : Nat)
    (dfa : α) (dfb : β) (h : i < l.length) :
    (l.map f).getD i dfb = f (l.getD i dfa) := by
  rw [List.getD_eq_getElem _ _ (by simpa using h), List.getD_eq_getElem _ _ h]
  simp

theorem length_validConv3 (kernel signal : Sig3) :
    (validConv3 kernel signal).length = signal.length := by
  simp [validConv3]

/-- C7: on a batch element whose time length is `T ≥ filter_width` and
whose channel count matches the kernel, `validConv3` (the rank-3
`tf.nn.conv1d` with `VALID` padding) produces a row of time length
`T - filter_width + 1` whose entry at `(t, o)` is
`Σ_j Σ_c signal[b][t + j][c] * kernel[j][c][o]`, with stride 1 and no
implicit padding. -/
theorem validConv3_correct (kernel signal : Sig3) (b t o T : Nat)
    (hfw : 0 < kernel.length) (hb : b < signal.length)
    (hT : (signal.getD b []).length = T) (hTfw : kernel.length ≤ T)
    (ht : t < T - kernel.length + 1) (ho : o < outChannels kernel) :
    (validConv3 kernel signal).length = signal.length ∧
    ((validConv3 kernel signal).getD b []).length =
      T - kernel.length + 1 ∧
    (((validConv3 kernel signal).getD b []).getD t []).getD o 0 =
      ∑ j ∈ Finset.range kernel.length,
        ∑ c ∈ Finset.range (inChannels kernel),
          ((signal.getD b []).getD (t + j) []).getD c 0 *
            ((kernel.getD j []).getD c []).getD o 0 := by
  have hrow : (validConv3 kernel signal).getD b [] =
      (List.range ((signal.getD b []).length + 1 - kernel.length)).map
        fun t' => (List.range (outChannels kernel)).map fun o' =>
          ∑ j ∈ Finset.range kernel.length,
            ∑ c ∈ Finset.range (inChannels kernel),
              ((signal.getD b []).getD (t' + j) []).getD c 0 *
                ((kernel.getD j []).getD c []).getD o' 0 := by
    unfold validConv3
    exact getD_map_list _ signal b [] [] hb
  rw [hT] at hrow
  refine ⟨length_validConv3 kernel signal, ?_, ?_⟩
  · rw [hrow, List.length_map, List.length_range]
    omega
  · have hcell : (List.map (fun t' =>
        List.map (fun o' =>
          ∑ j ∈ Finset.range kernel.length,
            ∑ c ∈ Finset.range (inChannels kernel),
              ((signal.getD b []).getD (t' + j) []).getD c 0 *
                ((kernel.getD j []).getD c []).getD o' 0)
          (List.range (outChannels kernel)))
        (List.range (T + 1 - kernel.length))).getD t [] =
        List.map (fun o' =>
          ∑ j ∈ Finset.range kernel.length,
            ∑ c ∈ Finset.range (inChannels kernel),
              ((signal.getD b []).getD (t + j) []).getD c 0 *
                ((kernel.getD j []).getD c []).getD o' 0)
          (List.range (outChannels kernel)) := by
      rw [List.getD_eq_getElem _ _ (by
        rw [List.length_map, List.length_range]; omega)]
      simp
    rw [hrow, hcell, List.getD_eq_getElem _ _ (by
      rw [List.length_map, List.length_range]; exact ho)]
    simp

theorem validConv3_correct_witness :
    0 < ([[[1], [2]], [[3], [4]]] : Sig3).length ∧
    0 < ([[[5, 6], [7, 8], [9, 10]]] : Sig3).length ∧
    (([[[5, 6], [7, 8], [9, 10]]] : Sig3).getD 0 []).length = 3 ∧
    ([[[1], [2]], [[3], [4]]] : Sig3).length ≤ 3 ∧
    0 < 3 - ([[[1], [2]], [[3], [4]]] : Sig3).length + 1 ∧
    0 < outChannels [[[1], [2]], [[3], [4]]] ∧
    (((validConv3 [[[1], [2]], [[3], [4]]]
        [[[5, 6], [7, 8], [9, 10]]]).getD 0 []).getD 0 []).getD 0 0 = 70 := by
  have h := validConv3_correct [[[1], [2]], [[3], [4]]]
    [[[5, 6], [7, 8], [9, 10]]] 0 0 0 3 (by decide) (by decide) (by decide)
    (by decide) (by decide) (by decide)
  refine ⟨by decide, by decide, by decide, by decide, by decide, by decide, ?_⟩
  rw [h.2.2]
  decide

/-- C8: on the concrete input `[0,1,2,3,4,5,6,7]` with the width-3
all-ones kernel, the non-dilated causal convolution (cell 6) returns
`[0,1,3,6,9,12,15,18]`, and the dilated-causal convolution with `d = 2`
(cell 8) returns `[0,1,2,4,6,9,12,15]`. -/
theorem literal_scenarios :
    validConv demoKernel (causalPad (demoKernel.length - 1) demoSignal) =
      [0, 1, 3, 6, 9, 12, 15, 18] ∧
    dilatedCausalConv 2 demoKernel demoSignal =
      [0, 1, 2, 4, 6, 9, 12, 15] := by
  constructor <;> decide

/-- C9: with a width-1 identity kernel `[1]`, the dilated-causal
operator returns the input exactly, for every dilation rate `d ≥ 1`,
including equal time length. -/
theorem identity_kernel (d : Nat) (x : Sig) (hd : 0 < d) :
    dilatedCausalConv d [1] x = x := by
  apply List.ext_getElem
  · rw [length_dilatedCausalConv d [1] x hd (by simp)]
  · intro i h1 h2
    rw [← List.getD_eq_getElem _ 0 h1, ← List.getD_eq_getElem _ 0 h2,
      getD_dilatedCausalConv d [1] x i hd (by simp) h2]
    simp

theorem identity_kernel_witness :
    0 < 3 ∧ dilatedCausalConv 3 [1] [5, -2, 7] = [5, -2, 7] :=
  ⟨by decide, identity_kernel 3 [5, -2, 7] (by decide)⟩

/-! ## Linearity in the signal -/

theorem length_addSig (x y : Sig) :
    (addSig x y).length = min x.length y.length := by
  simp [addSig]

theorem getD_addSig (x y : Sig) (hlen : x.length = y.length) (i : Nat) :
    (addSig x y).getD i 0 = x.getD i 0 + y.getD i 0 := by
  unfold addSig
  by_cases h : i < x.length
  · rw [List.getD_eq_getElem _ _ (by rw [List.length_zipWith]; omega),
      List.getElem_zipWith, List.getD_eq_getElem _ _ h,
      List.getD_eq_getElem _ _ (by omega)]
  · rw [List.getD_eq_default _ _ (by rw [List.length_zipWith]; omega),
      List.getD_eq_default _ _ (by omega), List.getD_eq_default _ _ (by omega)]
    ring

theorem length_smulSig (c : Int) (x : Sig) :
    (smulSig c x).length = x.length := by
  simp [smulSig]

theorem getD_smulSig (c : Int) (x : Sig) (i : Nat) :
    (smulSig c x).getD i 0 = c * x.getD i 0 := by
  unfold smulSig
  by_cases h : i < x.length
  · rw [List.getD_eq_getElem _ _ (by simpa using h), List.getElem_map,
      List.getD_eq_getElem _ _ h]
  · rw [List.getD_eq_default _ _ (by simpa using h),
      List.getD_eq_default _ _ (Nat.le_of_not_lt h)]
    ring

theorem validConv_add (k x y : Sig) (hlen : x.length = y.length) :
    validConv k (addSig x y) = addSig (validConv k x) (validConv k y) := by
  have hlx : (addSig x y).length = x.length := by rw [length_addSig]; omega
  apply List.ext_getElem
  · simp only [length_validConv, length_addSig]
    omega
  · intro i h1 h2
    have hi : i < x.length + 1 - k.length := by
      rwa [length_validConv, hlx] at h1
    rw [← List.getD_eq_getElem _ 0 h1, ← List.getD_eq_getElem _ 0 h2,
      getD_validConv _ _ _ (by rw [hlx]; exact hi),
      getD_addSig _ _ (by simp only [length_validConv]; omega) i,
      getD_validConv _ _ _ hi, getD_validConv _ _ _ (by omega),
      Finset.sum_congr rfl fun j _ => by
        rw [getD_addSig x y hlen (i + j), mul_add],
      Finset.sum_add_distrib]

theorem dilated_add (d : Nat) (k x y : Sig) (hd : 0 < d) (hk : 0 < k.length)
    (hlen : x.length = y.length) :
    dilatedCausalConv d k (addSig x y) =
      addSig (dilatedCausalConv d k x) (dilatedCausalConv d k y) := by
  have hlx : (addSig x y).length = x.length := by rw [length_addSig]; omega
  apply List.ext_getElem
  · rw [length_dilatedCausalConv d k _ hd hk, hlx, length_addSig,
      length_dilatedCausalConv d k x hd hk,
      length_dilatedCausalConv d k y hd hk]
    omega
  · intro i h1 h2
    have hi : i < x.length := by
      rwa [length_dilatedCausalConv d k _ hd hk, hlx] at h1
    rw [← List.getD_eq_getElem _ 0 h1, ← List.getD_eq_getElem _ 0 h2,
      getD_dilatedCausalConv d k _ i hd hk (by rw [hlx]; exact hi),
      getD_addSig _ _ (by
        rw [length_dilatedCausalConv d k x hd hk,
          length_dilatedCausalConv d k y hd hk]
        exact hlen) i,
      getD_dilatedCausalConv d k x i hd hk hi,
      getD_dilatedCausalConv d k y i hd hk (by omega)]
    have hterm : ∀ j ∈ Finset.range k.length,
        k.getD j 0 * (if (k.length - 1 - j) * d ≤ i then
          (addSig x y).getD (i - (k.length - 1 - j) * d) 0 else 0) =
        k.getD j 0 * (if (k.length - 1 - j) * d ≤ i then
          x.getD (i - (k.length - 1 - j) * d) 0 else 0) +
        k.getD j 0 * (if (k.length - 1 - j) * d ≤ i then
          y.getD (i - (k.length - 1 - j) * d) 0 else 0) := by
      intro j _
      by_cases hc : (k.length - 1 - j) * d ≤ i
      · rw [if_pos hc, if_pos hc, if_pos hc, getD_addSig x y hlen, mul_add]
      · rw [if_neg hc, if_neg hc, if_neg hc]
        ring
    rw [Finset.sum_congr rfl hterm, Finset.sum_add_distrib]

theorem validConv_smul (c : Int) (k x : Sig) :
    validConv k (smulSig c x) = smulSig c (validConv k x) := by
  apply List.ext_getElem
  · simp only [length_validConv, length_smulSig]
  · intro i h1 h2
    have hi : i < x.length + 1 - k.length := by
      rwa [length_validConv, length_smulSig] at h1
    rw [← List.getD_eq_getElem _ 0 h1, ← List.getD_eq_getElem _ 0 h2,
      getD_validConv _ _ _ (by rw [length_smulSig]; exact hi),
      getD_smulSig, getD_validConv _ _ _ hi,
      Finset.sum_congr rfl fun j _ => by
        rw [getD_smulSig c x (i + j), mul_left_comm],
      ← Finset.mul_sum]

theorem dilated_smul (d : Nat) (c : Int) (k x : Sig) (hd : 0 < d)
    (hk : 0 < k.length) :
    dilatedCausalConv d k (smulSig c x) =
      smulSig c (dilatedCausalConv d k x) := by
  apply List.ext_getElem
  · rw [length_dilatedCausalConv d k _ hd hk, length_smulSig, length_smulSig,
      length_dilatedCausalConv d k x hd hk]
  · intro i h1 h2
    have hi : i < x.length := by
      rwa [length_dilatedCausalConv d k _ hd hk, length_smulSig] at h1
    rw [← List.getD_eq_getElem _ 0 h1, ← List.getD_eq_getElem _ 0 h2,
      getD_dilatedCausalConv d k _ i hd hk (by rw [length_smulSig]; exact hi),
      getD_smulSig, getD_dilatedCausalConv d k x i hd hk hi]
    have hterm : ∀ j ∈ Finset.range k.length,
        k.getD j 0 * (if (k.length - 1 - j) * d ≤ i then
          (smulSig c x).getD (i - (k.length - 1 - j) * d) 0 else 0) =
        c * (k.getD j 0 * (if (k.length - 1 - j) * d ≤ i then
          x.getD (i - (k.length - 1 - j) * d) 0 else 0)) := by
      intro j _
      by_cases hc : (k.length - 1 - j) * d ≤ i
      · rw [if_pos hc, if_pos hc, getD_smulSig]
        ring
      · rw [if_neg hc, if_neg hc]
        ring
    rw [Finset.sum_congr rfl hterm, ← Finset.mul_sum]

/-- C10: every transform is linear in the signal — `validConv` and the
dilated-causal operator each send a pointwise sum of equal-shape signals
to the pointwise sum of their outputs, and a scalar multiple of the
input to the same scalar multiple of the output. -/
theorem linearity (d : Nat) (k x y : Sig) (c : Int) (hd : 0 < d)
    (hk : 0 < k.length) (hlen : x.length = y.length) :
    validConv k (addSig x y) = addSig (validConv k x) (validConv k y) ∧
    dilatedCausalConv d k (addSig x y) =
      addSig (dilatedCausalConv d k x) (dilatedCausalConv d k y) ∧
    validConv k (smulSig c x) = smulSig c (validConv k x) ∧
    dilatedCausalConv d k (smulSig c x) =
      smulSig c (dilatedCausalConv d k x) :=
  ⟨validConv_add k x y hlen, dilated_add d k x y hd hk hlen,
    validConv_smul c k x, dilated_smul d c k x hd hk⟩

theorem linearity_witness :
    0 < 2 ∧ 0 < (demoKernel : Sig).length ∧
    List.length [(1 : Int), 2, 3] = List.length [(4 : Int), 5, 6] ∧
    (validConv demoKernel (addSig [(1 : Int), 2, 3] [(4 : Int), 5, 6]) =
      addSig (validConv demoKernel [(1 : Int), 2, 3])
        (validConv demoKernel [(4 : Int), 5, 6]) ∧
    dilatedCausalConv 2 demoKernel (addSig [(1 : Int), 2, 3]
        [(4 : Int), 5, 6]) =
      addSig (dilatedCausalConv 2 demoKernel [(1 : Int), 2, 3])
        (dilatedCausalConv 2 demoKernel [(4 : Int), 5, 6]) ∧
    validConv demoKernel (smulSig (-2) [(1 : Int), 2, 3]) =
      smulSig (-2) (validConv demoKernel [(1 : Int), 2, 3]) ∧
    dilatedCausalConv 2 demoKernel (smulSig (-2) [(1 : Int), 2, 3]) =
      smulSig (-2) (dilatedCausalConv 2 demoKernel [(1 : Int), 2, 3])) :=
  ⟨by decide, by decide, by decide,
    linearity 2 demoKernel [(1 : Int), 2, 3] [(4 : Int), 5, 6] (-2)
      (by decide) (by decide) (by decide)⟩

end CausalConv
